import Mathlib

/-!
Verification of the `hqlockfree` library against its specification.

The development shallowly embeds the library's core components:

* `cache_utils.hpp` — power-of-two helpers, per-cache-line element counts,
  the `exact`/`pow2` index helpers and the `false_sharing_optimized_buffer`
  tile/slot index computation;
* `write_confirm.hpp` — the reserve/commit barrier (`get_write_index`,
  `confirm_write`, `get_read_index`);
* `spsc_queue.hpp` — the single-producer/single-consumer ring;
* `mpsc_queue.hpp` — the multi-producer/single-consumer ring (consumer side);
* `mpmc_fanout.hpp` — subscription handles, `pop`, and the daemon callback
  `update_min_tail`;
* `daemon.cpp` — the callback registry `remove_callback`;
* `spmc_push_vec.hpp` — the append-only SPMC vector.

C++ loops are embedded either with an explicit fuel argument (the fuel is
always chosen large enough for the loop to run to completion, and lemmas make
the required fuel explicit) or as structural recursion over the operation
list.  64-bit counters are embedded as `Nat`: the library's own specification
assumes the monotone 64-bit counters never wrap within a process lifetime,
and all subtractions are guarded by the invariants that make them
non-truncating.  Sequential (single-threaded) executions are modelled; a ring
operation that would busy-wait forever in a sequential execution is embedded
as `none`.
-/

namespace HqLockfree

/-! ## Cache substrate (`cache_utils.hpp`) -/

/-- `cache_line_size`: conventional x86-64 cache line size in bytes. -/
def cacheLineBytes : Nat := 64

/-- Loop of `pow2_factory::lower`: starting from `current`, double while
`current <= value`.  `fuel` bounds the number of iterations; callers pass
enough fuel for the loop to terminate on its own. -/
def pow2LowerGo (fuel value current : Nat) : Nat :=
  match fuel with
  | 0 => current
  | f + 1 => if current ≤ value then pow2LowerGo f value (current * 2) else current

/-- `pow2_factory::lower`: greatest power of two less than or equal to
`value` (returns `0` for `value = 0`, as the C++ code does via `1 >> 1`). -/
def pow2Lower (value : Nat) : Nat :=
  pow2LowerGo (value + 1) value 1 / 2

/-- Loop of `pow2_factory::upper`: starting from `current`, double while
`current < value`. -/
def pow2UpperGo (fuel value current : Nat) : Nat :=
  match fuel with
  | 0 => current
  | f + 1 => if current < value then pow2UpperGo f value (current * 2) else current

/-- `pow2_factory::upper`: smallest power of two greater than or equal to
`value`. -/
def pow2Upper (value : Nat) : Nat :=
  pow2UpperGo (value + 1) value 1

/-- Loop of `log2_factory::lower`: count doublings of `current` while
`current <= value`. -/
def log2LowerGo (fuel value current out : Nat) : Nat :=
  match fuel with
  | 0 => out
  | f + 1 =>
    if current ≤ value then log2LowerGo f value (current * 2) (out + 1) else out

/-- `log2_factory::lower`: `⌊log2 value⌋` for `value > 0` (the C++ code
returns `out - 1` after the counting loop). -/
def log2Lower (value : Nat) : Nat :=
  log2LowerGo (value + 1) value 1 0 - 1

/-- `cache_size_policy`: exact element packing versus power-of-two packing. -/
inductive CacheSizePolicy where
  | exact
  | pow2
deriving DecidableEq

/-- `elements_per_cache_line<T, exact>::value`, parametrised by `sizeof(T)`:
`sizeof(T) > cache_line_size ? 1 : cache_line_size / sizeof(T)`. -/
def elementsPerCacheLineExact (sizeofT : Nat) : Nat :=
  if cacheLineBytes < sizeofT then 1 else cacheLineBytes / sizeofT

/-- `elements_per_cache_line<T, pow2>::value`: the exact count rounded down
to a power of two. -/
def elementsPerCacheLinePow2 (sizeofT : Nat) : Nat :=
  pow2Lower (elementsPerCacheLineExact sizeofT)

/-- `elements_per_cache_line<T, policy>::value`. -/
def elementsPerCacheLine (policy : CacheSizePolicy) (sizeofT : Nat) : Nat :=
  match policy with
  | .exact => elementsPerCacheLineExact sizeofT
  | .pow2 => elementsPerCacheLinePow2 sizeofT

/-- `mod_indexer<policy>` constructed with divisor `sz`, applied to `index`:
plain `%` under `exact`, bit mask `index & (sz - 1)` under `pow2`. -/
def modIndexer (policy : CacheSizePolicy) (sz index : Nat) : Nat :=
  match policy with
  | .exact => index % sz
  | .pow2 => index &&& (sz - 1)

/-- `div_indexer<policy>` constructed with divisor `sz`, applied to `index`:
plain `/` under `exact`, right shift by `log2_factory::lower(sz)` under
`pow2`. -/
def divIndexer (policy : CacheSizePolicy) (sz index : Nat) : Nat :=
  match policy with
  | .exact => index / sz
  | .pow2 => index >>> log2Lower sz

/-- `false_sharing_optimized_buffer::calc_min_cache_lines`: identity under
`exact`, `pow2_factory::upper` under `pow2`. -/
def calcMinCacheLines (policy : CacheSizePolicy) (minCacheLines : Nat) : Nat :=
  match policy with
  | .exact => minCacheLines
  | .pow2 => pow2Upper minCacheLines

/-- Line count `M` chosen by the `false_sharing_optimized_buffer`
constructor: `max(calc_min_cache_lines(minimum_cache_lines),
(minimum_elements + (K-1)) / K)` where `K` is
`elements_per_cache_line<T, policy>::value`. -/
def numCacheLines (policy : CacheSizePolicy) (K minCacheLines minElements : Nat) : Nat :=
  max (calcMinCacheLines policy minCacheLines) ((minElements + (K - 1)) / K)

/-- `false_sharing_optimized_buffer::size()`:
`number_of_cache_lines() * cache_line_size`, i.e. `M * K`. -/
def fsobSize (policy : CacheSizePolicy) (K minCacheLines minElements : Nat) : Nat :=
  numCacheLines policy K minCacheLines minElements * K

/-- Storage cell addressed by `false_sharing_optimized_buffer::get(idx)`:
`m_lines[m_mod_index(idx)][m_div_index(m_mod_index2(idx))]`, where
`m_mod_index` and `m_div_index` are both constructed with the line count
`M = m_lines.size()` and `m_mod_index2` with the total size `M * K`.
The result is the pair (cache-line index, element index inside the line). -/
def fsobCell (policy : CacheSizePolicy) (M K idx : Nat) : Nat × Nat :=
  (modIndexer policy M idx, divIndexer policy M (modIndexer policy (M * K) idx))

/-- The cell addressed by `get(idx)`, flattened tile-major: a cell
`(line, slot)` of the `M × K` storage is identified with `line * K + slot`. -/
def fsobCellFlat (policy : CacheSizePolicy) (M K idx : Nat) : Nat :=
  (fsobCell policy M K idx).1 * K + (fsobCell policy M K idx).2

/-- Well-formedness of a buffer instantiation: the `pow2` index helpers
compute genuine mod/div only when the constructed sizes are powers of two.
Any `exact`-policy instantiation is well-formed. -/
def PolicyOk (policy : CacheSizePolicy) (M K : Nat) : Prop :=
  policy = .exact ∨ ((∃ a, M = 2 ^ a) ∧ (∃ b, K = 2 ^ b))

/-! ## Write-confirm barrier (`write_confirm.hpp`) -/

/-- The two cache-padded 64-bit counters of `write_confirm`. -/
structure WriteConfirm where
  writeHead : Nat
  readHead : Nat
deriving DecidableEq

/-- The zero-initialised barrier. -/
def writeConfirmInit : WriteConfirm := ⟨0, 0⟩

/-- `write_confirm::get_write_index`: fetch-and-add on `m_write_head`,
returning the pre-increment value. -/
def getWriteIndex (s : WriteConfirm) : Nat × WriteConfirm :=
  (s.writeHead, { s with writeHead := s.writeHead + 1 })

/-- `write_confirm::get_read_index`: load of `m_read_head`. -/
def getReadIndex (s : WriteConfirm) : Nat := s.readHead

/-- The CAS loop of `write_confirm::confirm_write`, for a fixed observed
`readHead`: each iteration attempts `CAS(m_read_head: written_index →
written_index + 1)`; on failure the observed value is compared against
`desired` (`break` when it is at least `written_index + 1`) and `expected`
is reset to `written_index`.  Sequentially, `m_read_head` does not move
between iterations, so a below-`written_index` read head spins until the
fuel runs out (`none`). -/
def confirmWriteLoop (fuel readHead writtenIndex : Nat) : Option Nat :=
  match fuel with
  | 0 => none
  | f + 1 =>
    if readHead = writtenIndex then some (writtenIndex + 1)
    else if writtenIndex + 1 ≤ readHead then some readHead
    else confirmWriteLoop f readHead writtenIndex

/-- `write_confirm::confirm_write` on the barrier state. -/
def confirmWrite (fuel : Nat) (s : WriteConfirm) (writtenIndex : Nat) :
    Option WriteConfirm :=
  (confirmWriteLoop fuel s.readHead writtenIndex).map
    (fun r => { s with readHead := r })

/-- One call into the `write_confirm` public interface. -/
inductive BarrierOp where
  | getWrite
  | getRead
  | confirm (i : Nat)

/-- Effect of one barrier call on the counters (`get_write_index` advances
the write head, `get_read_index` is a pure load, `confirm_write` runs the
CAS loop). -/
def barrierStep (fuel : Nat) (s : WriteConfirm) : BarrierOp → Option WriteConfirm
  | .getWrite => some (getWriteIndex s).2
  | .getRead => some s
  | .confirm i => confirmWrite fuel s i

/-- A sequence of barrier calls. -/
def barrierRun (fuel : Nat) (s : WriteConfirm) : List BarrierOp → Option WriteConfirm
  | [] => some s
  | op :: ops => (barrierStep fuel s op).bind (fun s2 => barrierRun fuel s2 ops)

/-! ## SPSC ring (`spsc_queue.hpp`) -/

/-- Pointwise update of the flat storage. -/
def bufWrite {T : Type} (buf : Nat → T) (c : Nat) (v : T) : Nat → T :=
  fun x => if x = c then v else buf x

/-- State of `spsc_queue`: the substrate contents (flat cell index →
element), the producer-private head, the published head, and the consumer
tail. -/
structure SpscState (T : Type) where
  buf : Nat → T
  privateHead : Nat
  head : Nat
  tail : Nat

/-- A freshly constructed `spsc_queue` whose substrate holds
default-constructed elements `d`. -/
def spscInit (T : Type) (d : T) : SpscState T := ⟨fun _ => d, 0, 0, 0⟩

/-- `spsc_queue::push`: reserve `index = m_private_head++`; busy-wait while
`index - m_tail ≥ capacity - 1` (sequentially the wait never ends, hence
`none`); write the element through the substrate `get`; publish
`m_head = index + 1`. -/
def spscPush (policy : CacheSizePolicy) (M K : Nat) {T : Type}
    (s : SpscState T) (v : T) : Option (SpscState T) :=
  let index := s.privateHead
  let s1 : SpscState T := { s with privateHead := s.privateHead + 1 }
  if M * K - 1 ≤ index - s1.tail then none
  else some { s1 with
    buf := bufWrite s1.buf (fsobCellFlat policy M K index) v,
    head := index + 1 }

/-- `spsc_queue::pop`: read `m_tail` and `m_head`; if `tail ≥ head` report
empty (`none`), otherwise move out the element at the tail cell and advance
`m_tail`. -/
def spscPop (policy : CacheSizePolicy) (M K : Nat) {T : Type}
    (s : SpscState T) : Option T × SpscState T :=
  let index := s.tail
  let head := s.head
  if head ≤ index then (none, s)
  else (some (s.buf (fsobCellFlat policy M K index)), { s with tail := index + 1 })

/-- One queue call in a sequential SPSC trace. -/
inductive SpscOp (T : Type) where
  | push (v : T)
  | pop

/-- Run a sequential trace of `push`/`pop` calls, collecting the values
returned by successful pops; `none` if some `push` busy-waits forever. -/
def spscRun (policy : CacheSizePolicy) (M K : Nat) {T : Type}
    (s : SpscState T) : List (SpscOp T) → Option (SpscState T × List T)
  | [] => some (s, [])
  | .push v :: ops =>
    match spscPush policy M K s v with
    | none => none
    | some s1 => spscRun policy M K s1 ops
  | .pop :: ops =>
    let r := spscPop policy M K s
    (spscRun policy M K r.2 ops).map (fun p => (p.1, r.1.toList ++ p.2))

/-- The pop outputs of a sequential SPSC trace. -/
def spscRunOuts (policy : CacheSizePolicy) (M K : Nat) {T : Type}
    (s : SpscState T) (ops : List (SpscOp T)) : Option (List T) :=
  (spscRun policy M K s ops).map (fun p => p.2)

/-- The values pushed by a trace, in order. -/
def pushedVals {T : Type} : List (SpscOp T) → List T
  | [] => []
  | .push v :: ops => v :: pushedVals ops
  | .pop :: ops => pushedVals ops

/-! ## MPSC ring (`mpsc_queue.hpp`), consumer side -/

/-- State of `mpsc_queue`: substrate contents, the embedded `write_confirm`
barrier, and the consumer-owned `m_tail`. -/
structure MpscState (T : Type) where
  buf : Nat → T
  barrier : WriteConfirm
  tail : Nat

/-- `mpsc_queue::pop(value)`: load the barrier read head and `m_tail`; if
`read_head ≤ tail` return `false` leaving everything (including the output
argument) unchanged; otherwise move `m_buffer[tail]` into the output
argument, store `m_tail = tail + 1`, and return `true`. -/
def mpscPop (policy : CacheSizePolicy) (M K : Nat) {T : Type}
    (s : MpscState T) (value : T) : Bool × MpscState T × T :=
  let read_head := getReadIndex s.barrier
  let tail := s.tail
  if read_head ≤ tail then (false, s, value)
  else (true, { s with tail := tail + 1 }, s.buf (fsobCellFlat policy M K tail))

/-! ## MPMC fan-out (`mpmc_fanout.hpp`) -/

/-- A `subscription_handle`: its cursor `m_tail` and liveness flag
`m_subscribed` (the references to the shared buffer and barrier live in the
enclosing queue state). -/
structure MpmcHandle where
  tail : Nat
  subscribed : Bool
deriving DecidableEq

/-- State of `mpmc_fanout`: substrate contents, barrier, aggregated
`m_min_tail`, and the subscription list (handles are identified by their
position). -/
structure MpmcState (T : Type) where
  buf : Nat → T
  barrier : WriteConfirm
  minTail : Nat
  handles : List MpmcHandle

/-- A freshly constructed `mpmc_fanout` whose substrate holds
default-constructed elements `d`. -/
def mpmcInit (T : Type) (d : T) : MpmcState T :=
  ⟨fun _ => d, writeConfirmInit, 0, []⟩

/-- `mpmc_fanout::subscribe`: append a new handle whose initial tail is the
barrier's current read index and whose liveness flag is set. -/
def mpmcSubscribe {T : Type} (s : MpmcState T) : MpmcState T :=
  { s with handles :=
      s.handles ++ [{ tail := getReadIndex s.barrier, subscribed := true }] }

/-- `subscription_handle::pop(value)` on the handle at position `hIdx`:
compare the barrier read head against the handle's tail; if
`read_head ≤ tail` return `false` (`none`), otherwise copy the element at
the tail cell out and advance the handle's tail. -/
def mpmcHandlePop (policy : CacheSizePolicy) (M K : Nat) {T : Type}
    (s : MpmcState T) (hIdx : Nat) : Option T × MpmcState T :=
  match s.handles[hIdx]? with
  | none => (none, s)
  | some h =>
    let read_head := getReadIndex s.barrier
    let tail := h.tail
    if read_head ≤ tail then (none, s)
    else (some (s.buf (fsobCellFlat policy M K tail)),
      { s with handles := s.handles.set hIdx { h with tail := tail + 1 } })

/-- `mpmc_fanout::push`: reserve from the barrier; busy-wait while
`index - m_min_tail ≥ capacity - 1` (`none` sequentially); write the
element; commit via `confirm_write`. -/
def mpmcPush (fuel : Nat) (policy : CacheSizePolicy) (M K : Nat) {T : Type}
    (s : MpmcState T) (v : T) : Option (MpmcState T) :=
  let r := getWriteIndex s.barrier
  let index := r.1
  if M * K - 1 ≤ index - s.minTail then none
  else
    let newBuf := bufWrite s.buf (fsobCellFlat policy M K index) v
    let s1 : MpmcState T := { s with barrier := r.2, buf := newBuf }
    (confirmWrite fuel s1.barrier index).map (fun b => { s1 with barrier := b })

/-- Push a list of values in order. -/
def mpmcPushList (fuel : Nat) (policy : CacheSizePolicy) (M K : Nat) {T : Type}
    (s : MpmcState T) : List T → Option (MpmcState T)
  | [] => some s
  | v :: vs =>
    (mpmcPush fuel policy M K s v).bind
      (fun s1 => mpmcPushList fuel policy M K s1 vs)

/-- Walk of `mpmc_fanout::update_min_tail` over the subscription list:
live handles lower the running minimum and are kept; retired handles are
erased. -/
def updateMinTailGo (minTail : Nat) : List MpmcHandle → Nat × List MpmcHandle
  | [] => (minTail, [])
  | h :: hs =>
    if h.subscribed then
      let r := updateMinTailGo (min minTail h.tail) hs
      (r.1, h :: r.2)
    else updateMinTailGo minTail hs

/-- `mpmc_fanout::update_min_tail` (the daemon callback): seed the walk with
the barrier read index, then publish the resulting minimum and the purged
subscription list. -/
def updateMinTail {T : Type} (s : MpmcState T) : MpmcState T :=
  let r := updateMinTailGo (getReadIndex s.barrier) s.handles
  { s with minTail := r.1, handles := r.2 }

/-! ## Callback daemon registry (`daemon.cpp`) -/

/-- `daemon::remove_callback(key)` on the callback map, embedded as an
association list: if no entry with the key exists (`find == end`) return
with the registry untouched; otherwise erase the entry with that key. -/
def removeCallback {C : Type} (callbacks : List (Nat × C)) (key : Nat) :
    List (Nat × C) :=
  if (callbacks.lookup key).isNone then callbacks
  else callbacks.eraseP (fun p => p.1 == key)

/-! ## SPMC append-only vector (`spmc_push_vec.hpp`) -/

/-- One `std::vector` backing array: its contents and its capacity. -/
structure BackingVec (T : Type) where
  data : List T
  cap : Nat
deriving DecidableEq

/-- State of `spmc_push_vec`.  Backing arrays live in an arena `heap` and
are identified by their arena address, so that pointer identity
(`m_current_vec` versus the entries of `m_old_vecs`) is meaningful:
`oldVecs` is the list of addresses held by `m_old_vecs` in order, `current`
the address loaded from `m_current_vec`, `size` the published `m_size`. -/
structure SpmcState (T : Type) where
  heap : List (BackingVec T)
  oldVecs : List Nat
  current : Nat
  size : Nat

/-- The backing array at address `a`. -/
def vecAt {T : Type} (s : SpmcState T) (a : Nat) : BackingVec T :=
  s.heap.getD a ⟨[], 0⟩

/-- `spmc_push_vec::create_new_vector(previous)`: allocate a fresh
`std::vector` copy-constructed from `previous` (its capacity equals its
length), append the owning pointer to `m_old_vecs`, and return the new
address. -/
def createNewVector {T : Type} (s : SpmcState T) (previous : List T) :
    Nat × SpmcState T :=
  let addr := s.heap.length
  (addr, { s with heap := s.heap ++ [⟨previous, previous.length⟩],
                  oldVecs := s.oldVecs ++ [addr] })

/-- `std::vector::reserve(k)` on the array at `addr`: capacity grows to at
least `k`, contents unchanged. -/
def vecReserve {T : Type} (s : SpmcState T) (addr k : Nat) : SpmcState T :=
  let v := vecAt s addr
  { s with heap := s.heap.set addr { v with cap := max v.cap k } }

/-- `std::vector::resize(k)` on the array at `addr`: truncate or extend
with default-initialised elements. -/
def vecResize {T : Type} [Inhabited T] (s : SpmcState T) (addr k : Nat) :
    SpmcState T :=
  let v := vecAt s addr
  let data := if k ≤ v.data.length then v.data.take k
              else v.data ++ List.replicate (k - v.data.length) default
  { s with heap := s.heap.set addr { data := data, cap := max v.cap k } }

/-- `std::vector::push_back(v)` on the array at `addr`. -/
def vecPushBack {T : Type} (s : SpmcState T) (addr : Nat) (v : T) : SpmcState T :=
  let b := vecAt s addr
  { s with heap := s.heap.set addr ⟨b.data ++ [v], max b.cap (b.data.length + 1)⟩ }

/-- `spmc_push_vec::capacity()`: capacity of the active backing array. -/
def spmcCapacity {T : Type} (s : SpmcState T) : Nat := (vecAt s s.current).cap

/-- `spmc_push_vec::spmc_push_vec(initial_capacity)`: create the first
backing array via `create_new_vector()` and reserve `initial_capacity` on
it. -/
def spmcInit (T : Type) (initialCapacity : Nat) : SpmcState T :=
  let s0 : SpmcState T := ⟨[], [], 0, 0⟩
  let r := createNewVector s0 []
  let s1 := { r.2 with current := r.1 }
  vecReserve s1 s1.current initialCapacity

/-- `spmc_push_vec::reserve(k)`: when the capacity is short, build a new
backing array copied from the current one, reserve `k` on it, and publish
it as the current array. -/
def spmcReserve {T : Type} (s : SpmcState T) (k : Nat) : SpmcState T :=
  if spmcCapacity s < k then
    let r := createNewVector s (vecAt s s.current).data
    let s1 := vecReserve r.2 r.1 k
    { s1 with current := r.1 }
  else s

/-- `spmc_push_vec::resize(k)`: shrink requests throw
(`std::runtime_error`); otherwise reserve, grow the active array to length
`k`, and publish `m_size = k`. -/
def spmcResize {T : Type} [Inhabited T] (s : SpmcState T) (k : Nat) :
    Except String (SpmcState T) :=
  if k < s.size then .error "spmc_push_vec::resize - cannot shrink"
  else
    let s1 := spmcReserve s k
    let s2 := vecResize s1 s1.current k
    .ok { s2 with size := k }

/-- `spmc_push_vec::push_back(v)`: double the capacity if full, append to
the active array, publish `m_size = current_size + 1`. -/
def spmcPushBack {T : Type} (s : SpmcState T) (v : T) : SpmcState T :=
  let currentSize := s.size
  let s1 := if spmcCapacity s ≤ currentSize then spmcReserve s (spmcCapacity s * 2)
            else s
  let s2 := vecPushBack s1 s1.current v
  { s2 with size := currentSize + 1 }

/-- `spmc_push_vec::emplace_back(args...)`: identical control flow to
`push_back` with the element constructed in place. -/
def spmcEmplaceBack {T : Type} (s : SpmcState T) (v : T) : SpmcState T :=
  spmcPushBack s v

/-- `spmc_push_vec::drop_old()`: keep only `*m_old_vecs.rbegin()` (the
empty-archive case is undefined behaviour in C++ and unreachable; the
embedding leaves the state unchanged there). -/
def spmcDropOld {T : Type} (s : SpmcState T) : SpmcState T :=
  match s.oldVecs.getLast? with
  | some a => { s with oldVecs := [a] }
  | none => s

/-- One producer-side call on `spmc_push_vec`. -/
inductive SpmcOp (T : Type) where
  | pushBack (v : T)
  | emplaceBack (v : T)
  | reserve (k : Nat)
  | resize (k : Nat)
  | dropOld

/-- Apply one producer call; a throwing `resize` propagates the exception
and leaves the container unchanged. -/
def spmcApply {T : Type} [Inhabited T] (s : SpmcState T) : SpmcOp T → SpmcState T
  | .pushBack v => spmcPushBack s v
  | .emplaceBack v => spmcEmplaceBack s v
  | .reserve k => spmcReserve s k
  | .resize k =>
    match spmcResize s k with
    | .ok s1 => s1
    | .error _ => s
  | .dropOld => spmcDropOld s

/-- Run a sequence of producer calls. -/
def spmcRun {T : Type} [Inhabited T] (s : SpmcState T) : List (SpmcOp T) → SpmcState T
  | [] => s
  | op :: ops => spmcRun (spmcApply s op) ops

/-- States reachable from construction by producer calls. -/
def SpmcReachable {T : Type} [Inhabited T] (s : SpmcState T) : Prop :=
  ∃ (cap0 : Nat) (ops : List (SpmcOp T)), spmcRun (spmcInit T cap0) ops = s

/-- Structural invariant of `spmc_push_vec`: the archive `m_old_vecs` is
never empty, its last entry is exactly the array published through
`m_current_vec`, that address is live in the arena, and the active array's
length is the published size. -/
def SpmcInv {T : Type} (s : SpmcState T) : Prop :=
  s.oldVecs ≠ [] ∧ s.oldVecs.getLast? = some s.current ∧
  s.current < s.heap.length ∧ (vecAt s s.current).data.length = s.size

/-- Sequential invariant of the SPSC ring, relating the state to the list
`P` of all values pushed so far: the published head and the private head
both equal the push count, the consumer tail lags by less than the
capacity, and every not-yet-popped element sits in its storage cell. -/
structure SpscInv (policy : CacheSizePolicy) (M K : Nat) {T : Type}
    (P : List T) (s : SpscState T) : Prop where
  head_eq : s.head = P.length
  ph_eq : s.privateHead = P.length
  tail_le : s.tail ≤ P.length
  window : P.length - s.tail ≤ M * K - 1
  contents : ∀ (k : Nat), s.tail ≤ k → ∀ (h2 : k < P.length),
    s.buf (fsobCellFlat policy M K k) = P.get ⟨k, h2⟩

/-! ### Helper lemmas about the loops and the indexers -/

lemma log2LowerGo_two_pow (a : Nat) :
    ∀ (fuel j : Nat), j ≤ a + 1 → a + 2 - j ≤ fuel →
      log2LowerGo fuel (2 ^ a) (2 ^ j) j = a + 1 := by
  intro fuel
  induction fuel with
  | zero => intro j hj hf; omega
  | succ f ih =>
    intro j hj hf
    rcases Nat.lt_or_ge j (a + 1) with hlt | hge
    · have hle : 2 ^ j ≤ 2 ^ a := Nat.pow_le_pow_right (by norm_num) (by omega)
      have hstep : 2 ^ j * 2 = 2 ^ (j + 1) := by rw [pow_succ]
      simp only [log2LowerGo, if_pos hle, hstep]
      exact ih (j + 1) (by omega) (by omega)
    · have hj' : j = a + 1 := by omega
      subst hj'
      have hgt : ¬ (2 ^ (a + 1) ≤ 2 ^ a) := by
        have h2 : (2:Nat) ^ a < 2 ^ (a + 1) := by
          have := Nat.pos_pow_of_pos (n := 2) a (by norm_num)
          rw [pow_succ]; omega
        omega
      simp only [log2LowerGo, if_neg hgt]

lemma log2Lower_two_pow (a : Nat) : log2Lower (2 ^ a) = a := by
  have hfuel : a + 2 - 0 ≤ 2 ^ a + 1 := by
    have := Nat.lt_two_pow a
    omega
  have h := log2LowerGo_two_pow a (2 ^ a + 1) 0 (by omega) hfuel
  rw [show (2:Nat) ^ 0 = 1 from rfl] at h
  unfold log2Lower
  omega

lemma modIndexer_two_pow (a idx : Nat) :
    modIndexer .pow2 (2 ^ a) idx = idx % 2 ^ a := by
  simp [modIndexer, Nat.and_pow_two_sub_one_eq_mod]

lemma divIndexer_two_pow (a idx : Nat) :
    divIndexer .pow2 (2 ^ a) idx = idx / 2 ^ a := by
  simp [divIndexer, log2Lower_two_pow, Nat.shiftRight_eq_div_pow]

/-- Under a well-formed instantiation, `get` addresses cache line
`idx % M` and, within it, slot `(idx % (M*K)) / M`. -/
lemma fsobCell_formula (policy : CacheSizePolicy) (M K idx : Nat)
    (hpol : PolicyOk policy M K) :
    fsobCell policy M K idx = (idx % M, idx % (M * K) / M) := by
  rcases hpol with hexact | ⟨⟨a, ha⟩, ⟨b, hb⟩⟩
  · subst hexact; rfl
  · cases policy with
    | exact => rfl
    | pow2 =>
      subst ha; subst hb
      have hMK : (2:Nat) ^ a * 2 ^ b = 2 ^ (a + b) := (pow_add 2 a b).symm
      simp only [fsobCell, hMK, modIndexer_two_pow, divIndexer_two_pow]

/-- The slot index computed by `get` is always below `K`. -/
lemma fsobCell_slot_lt (M K idx : Nat) (hM : 0 < M) (hK : 0 < K) :
    idx % (M * K) / M < K :=
  Nat.div_lt_of_lt_mul (Nat.mod_lt idx (by positivity))

/-- Two monotone indices address the same storage cell exactly when they are
congruent modulo the capacity `M * K`. -/
lemma fsobCell_eq_iff (policy : CacheSizePolicy) (M K i j : Nat)
    (hpol : PolicyOk policy M K) (hM : 0 < M) (hK : 0 < K) :
    (fsobCell policy M K i = fsobCell policy M K j ↔ i % (M * K) = j % (M * K)) := by
  rw [fsobCell_formula policy M K i hpol, fsobCell_formula policy M K j hpol]
  constructor
  · intro h
    have hfst : i % M = j % M := congrArg Prod.fst h
    have hsnd : i % (M * K) / M = j % (M * K) / M := congrArg Prod.snd h
    have hdvd : M ∣ M * K := ⟨K, rfl⟩
    have hi : i % (M * K) % M = i % M := Nat.mod_mod_of_dvd i hdvd
    have hj : j % (M * K) % M = j % M := Nat.mod_mod_of_dvd j hdvd
    calc i % (M * K) = M * (i % (M * K) / M) + i % (M * K) % M :=
          (Nat.div_add_mod _ M).symm
      _ = M * (j % (M * K) / M) + j % (M * K) % M := by
          rw [hsnd, hi, hj, hfst]
      _ = j % (M * K) := Nat.div_add_mod _ M
  · intro h
    have hdvd : M ∣ M * K := ⟨K, rfl⟩
    have hfst : i % M = j % M := by
      rw [← Nat.mod_mod_of_dvd i hdvd, ← Nat.mod_mod_of_dvd j hdvd, h]
    rw [Prod.mk.injEq]
    exact ⟨hfst, by rw [h]⟩

/-- Flat-cell version of `fsobCell_eq_iff`. -/
lemma fsobCellFlat_eq_iff (policy : CacheSizePolicy) (M K i j : Nat)
    (hpol : PolicyOk policy M K) (hM : 0 < M) (hK : 0 < K) :
    (fsobCellFlat policy M K i = fsobCellFlat policy M K j ↔
      i % (M * K) = j % (M * K)) := by
  unfold fsobCellFlat
  rw [← fsobCell_eq_iff policy M K i j hpol hM hK]
  constructor
  · intro h
    have hi := fsobCell_formula policy M K i hpol
    have hj := fsobCell_formula policy M K j hpol
    have hslot_i : (fsobCell policy M K i).2 < K := by
      rw [hi]; exact fsobCell_slot_lt M K i hM hK
    have hslot_j : (fsobCell policy M K j).2 < K := by
      rw [hj]; exact fsobCell_slot_lt M K j hM hK
    have hline : (fsobCell policy M K i).1 = (fsobCell policy M K j).1 := by
      by_contra hne
      rcases Nat.lt_or_ge (fsobCell policy M K i).1 (fsobCell policy M K j).1 with hlt | hge
      · have : (fsobCell policy M K i).1 * K + (fsobCell policy M K i).2 <
            (fsobCell policy M K j).1 * K := by
          have := Nat.succ_le_of_lt hlt
          calc (fsobCell policy M K i).1 * K + (fsobCell policy M K i).2
              < (fsobCell policy M K i).1 * K + K := by omega
            _ = ((fsobCell policy M K i).1 + 1) * K := by ring
            _ ≤ (fsobCell policy M K j).1 * K := Nat.mul_le_mul_right K this
        omega
      · have hlt : (fsobCell policy M K j).1 < (fsobCell policy M K i).1 := by omega
        have : (fsobCell policy M K j).1 * K + (fsobCell policy M K j).2 <
            (fsobCell policy M K i).1 * K := by
          have := Nat.succ_le_of_lt hlt
          calc (fsobCell policy M K j).1 * K + (fsobCell policy M K j).2
              < (fsobCell policy M K j).1 * K + K := by omega
            _ = ((fsobCell policy M K j).1 + 1) * K := by ring
            _ ≤ (fsobCell policy M K i).1 * K := Nat.mul_le_mul_right K this
        omega
    have hslot : (fsobCell policy M K i).2 = (fsobCell policy M K j).2 := by
      rw [hline] at h; omega
    exact Prod.ext hline hslot
  · intro h
    rw [h]

/-! ### Write-confirm barrier lemmas -/

/-- The CAS loop of `confirm_write` either installs `writtenIndex + 1` (when
the read head was exactly `writtenIndex`) or exits leaving a strictly larger
read head unchanged. -/
lemma confirmWriteLoop_spec (fuel : Nat) :
    ∀ r i r2 : Nat, confirmWriteLoop fuel r i = some r2 →
      (r = i ∧ r2 = i + 1) ∨ (i < r ∧ r2 = r) := by
  induction fuel with
  | zero => intro r i r2 h; simp [confirmWriteLoop] at h
  | succ f ih =>
    intro r i r2 h
    unfold confirmWriteLoop at h
    by_cases h1 : r = i
    · rw [if_pos h1] at h
      exact Or.inl ⟨h1, (Option.some_injective _ h).symm⟩
    · rw [if_neg h1] at h
      by_cases h2 : i + 1 ≤ r
      · rw [if_pos h2] at h
        exact Or.inr ⟨by omega, (Option.some_injective _ h).symm⟩
      · rw [if_neg h2] at h
        exact ih r i r2 h

/-- Any single barrier call leaves `m_read_head` no smaller. -/
lemma barrierStep_readHead_mono (fuel : Nat) (s s2 : WriteConfirm) (op : BarrierOp)
    (h : barrierStep fuel s op = some s2) : s.readHead ≤ s2.readHead := by
  cases op with
  | getWrite =>
    simp only [barrierStep, getWriteIndex, Option.some.injEq] at h
    rw [← h]
  | getRead =>
    simp only [barrierStep, Option.some.injEq] at h
    rw [← h]
  | confirm i =>
    simp only [barrierStep, confirmWrite, Option.map_eq_some'] at h
    obtain ⟨r2, hr2, hs2⟩ := h
    rcases confirmWriteLoop_spec fuel s.readHead i r2 hr2 with ⟨he, hv⟩ | ⟨he, hv⟩ <;>
      rw [← hs2] <;> simp <;> omega

/-- Along any sequence of barrier calls, `m_read_head` is non-decreasing. -/
lemma barrierRun_readHead_mono (fuel : Nat) :
    ∀ (ops : List BarrierOp) (s s2 : WriteConfirm),
      barrierRun fuel s ops = some s2 → s.readHead ≤ s2.readHead := by
  intro ops
  induction ops with
  | nil =>
    intro s s2 h
    simp only [barrierRun, Option.some.injEq] at h
    rw [← h]
  | cons op ops ih =>
    intro s s2 h
    simp only [barrierRun, Option.bind_eq_some] at h
    obtain ⟨s1, h1, h2⟩ := h
    exact le_trans (barrierStep_readHead_mono fuel s s1 op h1) (ih s1 s2 h2)

/-! ### SPSC ring lemmas -/

/-- Two in-flight indices (less than a capacity apart) never share a
storage cell. -/
lemma fsobCellFlat_ne_of_window (policy : CacheSizePolicy) (M K k idx : Nat)
    (hpol : PolicyOk policy M K) (hM : 0 < M) (hK : 0 < K)
    (hk : k < idx) (hwin : idx - k < M * K) :
    fsobCellFlat policy M K k ≠ fsobCellFlat policy M K idx := by
  intro h
  rw [fsobCellFlat_eq_iff policy M K k idx hpol hM hK] at h
  have hdvd : (M * K) ∣ idx - k := (Nat.modEq_iff_dvd' (le_of_lt hk)).mp h
  have := Nat.le_of_dvd (by omega) hdvd
  omega

/-- Characterisation of a successful (non-spinning) `spsc_queue::push`. -/
lemma spscPush_some (policy : CacheSizePolicy) (M K : Nat) {T : Type}
    (s s1 : SpscState T) (v : T)
    (h : spscPush policy M K s v = some s1) :
    s.privateHead - s.tail < M * K - 1 ∧
    s1 = ⟨bufWrite s.buf (fsobCellFlat policy M K s.privateHead) v,
          s.privateHead + 1, s.privateHead + 1, s.tail⟩ := by
  simp only [spscPush] at h
  split at h
  · exact absurd h (by simp)
  · rename_i hg
    refine ⟨by omega, ?_⟩
    have := Option.some_injective _ h
    rw [← this]

/-- A successful push extends the invariant by the pushed value. -/
lemma spscPush_inv (policy : CacheSizePolicy) (M K : Nat) {T : Type}
    (hpol : PolicyOk policy M K) (hM : 0 < M) (hK : 0 < K)
    (P : List T) (s s1 : SpscState T) (v : T)
    (hinv : SpscInv policy M K P s)
    (h : spscPush policy M K s v = some s1) :
    SpscInv policy M K (P ++ [v]) s1 := by
  obtain ⟨hhead, hph, htle, hwin, hcont⟩ := hinv
  obtain ⟨hg, hs1⟩ := spscPush_some policy M K s s1 v h
  subst hs1
  have hlen : (P ++ [v]).length = P.length + 1 := by simp
  refine ⟨by simp [hph], by simp [hph], by simp; omega, by simp; omega, ?_⟩
  intro k h1 h2
  rw [hlen] at h2
  have h1' : s.tail ≤ k := h1
  rcases Nat.lt_or_ge k P.length with hk | hk
  · have hcap : 0 < M * K := Nat.mul_pos hM hK
    have hne : fsobCellFlat policy M K k ≠ fsobCellFlat policy M K s.privateHead :=
      fsobCellFlat_ne_of_window policy M K k s.privateHead hpol hM hK
        (by omega) (by omega)
    show bufWrite s.buf (fsobCellFlat policy M K s.privateHead) v
        (fsobCellFlat policy M K k) = _
    rw [bufWrite, if_neg hne]
    have := hcont k h1 hk
    rw [this]
    simp only [List.get_eq_getElem]
    exact (List.getElem_append_left hk).symm
  · have hkeq : k = P.length := by omega
    subst hkeq
    show bufWrite s.buf (fsobCellFlat policy M K s.privateHead) v
        (fsobCellFlat policy M K P.length) = _
    rw [bufWrite, hph, if_pos rfl]
    simp

/-- Running a trace from an invariant state: the pop outputs are the
pushed-value sequence, read in order starting at the consumer tail. -/
lemma spscRun_outs_spec (policy : CacheSizePolicy) (M K : Nat) {T : Type}
    (hpol : PolicyOk policy M K) (hM : 0 < M) (hK : 0 < K) :
    ∀ (ops : List (SpscOp T)) (P : List T) (s : SpscState T)
      (p : SpscState T × List T),
      SpscInv policy M K P s →
      spscRun policy M K s ops = some p →
      p.2 = ((P ++ pushedVals ops).drop s.tail).take p.2.length := by
  intro ops
  induction ops with
  | nil =>
    intro P s p hinv h
    simp only [spscRun, Option.some.injEq] at h
    rw [← h]
    simp
  | cons op ops ih =>
    cases op with
    | push v =>
      intro P s p hinv h
      simp only [spscRun] at h
      cases hp : spscPush policy M K s v with
      | none => rw [hp] at h; exact absurd h (by simp)
      | some s1 =>
        rw [hp] at h
        have hinv1 := spscPush_inv policy M K hpol hM hK P s s1 v hinv hp
        have hrec := ih (P ++ [v]) s1 p hinv1 h
        have htail : s1.tail = s.tail := by
          obtain ⟨-, hs1⟩ := spscPush_some policy M K s s1 v hp
          rw [hs1]
        rw [htail] at hrec
        rw [List.append_assoc, List.singleton_append] at hrec
        simpa [pushedVals] using hrec
    | pop =>
      intro P s p hinv h
      obtain ⟨hhead, hph, htle, hwin, hcont⟩ := hinv
      simp only [spscRun] at h
      by_cases hcase : s.head ≤ s.tail
      · have hr : spscPop policy M K s = (none, s) := by
          simp [spscPop, hcase]
        rw [hr] at h
        obtain ⟨p0, hp0, hpp⟩ := Option.map_eq_some'.mp h
        have hrec := ih P s p0 ⟨hhead, hph, htle, hwin, hcont⟩ hp0
        rw [← hpp]
        simpa [pushedVals] using hrec
      · have htl : s.tail < P.length := by omega
        have hr : spscPop policy M K s =
            (some (s.buf (fsobCellFlat policy M K s.tail)),
              { s with tail := s.tail + 1 }) := by
          simp [spscPop]
          omega
        rw [hr] at h
        obtain ⟨p0, hp0, hpp⟩ := Option.map_eq_some'.mp h
        have hinv1 : SpscInv policy M K P { s with tail := s.tail + 1 } := by
          refine ⟨hhead, hph, by simp; omega, by simp; omega, ?_⟩
          intro k h1 h2
          simp only at h1
          exact hcont k (by omega) h2
        have hrec := ih P _ p0 hinv1 hp0
        simp only at hrec
        rw [← hpp]
        simp only [Option.toList_some, List.singleton_append, List.length_cons,
          pushedVals]
        have hQ : s.tail < (P ++ pushedVals ops).length := by
          simp
          omega
        rw [List.drop_eq_getElem_cons hQ, List.take_succ_cons]
        congr 1
        rw [hcont s.tail (le_refl _) htl]
        simp only [List.get_eq_getElem]
        exact (List.getElem_append_left htl).symm

/-! ### MPMC fan-out lemmas -/

/-- The walk of `update_min_tail` keeps exactly the live handles, and its
running result is the least element of the seed together with the live
tails. -/
lemma updateMinTailGo_spec :
    ∀ (l : List MpmcHandle) (m : Nat),
      (updateMinTailGo m l).2 = l.filter (fun h => h.subscribed) ∧
      (updateMinTailGo m l).1 ∈
        m :: (l.filter (fun h => h.subscribed)).map (fun h => h.tail) ∧
      ∀ x ∈ m :: (l.filter (fun h => h.subscribed)).map (fun h => h.tail),
        (updateMinTailGo m l).1 ≤ x := by
  intro l
  induction l with
  | nil =>
    intro m
    refine ⟨rfl, by simp [updateMinTailGo], ?_⟩
    intro x hx
    simp only [List.filter_nil, List.map_nil, List.mem_singleton] at hx
    simp [updateMinTailGo, hx]
  | cons h hs ih =>
    intro m
    by_cases hsub : h.subscribed = true
    · obtain ⟨ih1, ih2, ih3⟩ := ih (min m h.tail)
      simp only [updateMinTailGo, hsub, if_true, List.filter_cons, List.map_cons]
      refine ⟨by rw [ih1], ?_, ?_⟩
      · rcases List.mem_cons.mp ih2 with hc | hc
        · rcases min_choice m h.tail with hmin | hmin
          · have heq : (updateMinTailGo (min m h.tail) hs).1 = m := by
              rw [hc, hmin]
            rw [heq]
            exact List.mem_cons_self _ _
          · have heq : (updateMinTailGo (min m h.tail) hs).1 = h.tail := by
              rw [hc, hmin]
            rw [heq]
            exact List.mem_cons_of_mem _ (List.mem_cons_self _ _)
        · exact List.mem_cons_of_mem _ (List.mem_cons_of_mem _ hc)
      · intro x hx
        rcases List.mem_cons.mp hx with hc | hc
        · have := ih3 (min m h.tail) (List.mem_cons_self _ _)
          have hmm : min m h.tail ≤ m := min_le_left _ _
          omega
        · rcases List.mem_cons.mp hc with hc2 | hc2
          · have := ih3 (min m h.tail) (List.mem_cons_self _ _)
            have hmt : min m h.tail ≤ h.tail := min_le_right _ _
            omega
          · exact ih3 x (List.mem_cons_of_mem _ hc2)
    · obtain ⟨ih1, ih2, ih3⟩ := ih m
      have hsub' : h.subscribed = false := by
        cases hh : h.subscribed
        · rfl
        · exact absurd hh hsub
      simp only [updateMinTailGo, hsub', if_false, List.filter_cons, hsub',
        Bool.false_eq_true, ite_false]
      exact ⟨ih1, ih2, ih3⟩

/-! ### Daemon registry lemmas -/

/-- `find` misses exactly when no entry carries the key. -/
lemma lookup_eq_none_of_absent {C : Type} :
    ∀ (cbs : List (Nat × C)) (key : Nat),
      (∀ p ∈ cbs, p.1 ≠ key) → List.lookup key cbs = none := by
  intro cbs key
  induction cbs with
  | nil => intro _; rfl
  | cons a rest ih =>
    intro h
    obtain ⟨k, b⟩ := a
    have hk : k ≠ key := by
      have := h (k, b) (List.mem_cons_self _ _)
      simpa using this
    have hbeq : (key == k) = false := by
      simp
      omega
    simp only [List.lookup, hbeq]
    exact ih (fun p hp => h p (List.mem_cons_of_mem _ hp))

/-- A present key is found. -/
lemma lookup_isSome_of_mem {C : Type} :
    ∀ (cbs : List (Nat × C)) (key : Nat) (c : C),
      (key, c) ∈ cbs → (List.lookup key cbs).isSome = true := by
  intro cbs key c
  induction cbs with
  | nil => intro h; simp at h
  | cons a rest ih =>
    intro h
    obtain ⟨k, b⟩ := a
    by_cases hk : key = k
    · have hbeq : (key == k) = true := by simp [hk]
      simp [List.lookup, hbeq]
    · have hbeq : (key == k) = false := by simp [hk]
      simp only [List.lookup, hbeq]
      rcases List.mem_cons.mp h with he | hm
      · exact absurd (congrArg Prod.fst he) (by simpa using hk)
      · exact ih hm

/-- Erasing by key from a registry with unique keys removes exactly the
entry with that key. -/
lemma eraseP_key_spec {C : Type} :
    ∀ (cbs : List (Nat × C)) (key : Nat) (c : C),
      (cbs.map Prod.fst).Nodup → (key, c) ∈ cbs →
      ((∀ p : Nat × C,
          p ∈ cbs.eraseP (fun q => q.1 == key) ↔ p ∈ cbs ∧ p.1 ≠ key) ∧
        (cbs.eraseP (fun q => q.1 == key)).length + 1 = cbs.length) := by
  intro cbs
  induction cbs with
  | nil => intro key c _ hm; simp at hm
  | cons a rest ih =>
    intro key c hnd hm
    obtain ⟨k, b⟩ := a
    rw [List.map_cons, List.nodup_cons] at hnd
    by_cases hk : k = key
    · subst hk
      have he : (((k, b) :: rest).eraseP (fun q => q.1 == k)) = rest := by
        simp [List.eraseP_cons]
      rw [he]
      refine ⟨?_, by simp⟩
      intro p
      constructor
      · intro hp
        refine ⟨List.mem_cons_of_mem _ hp, ?_⟩
        intro hpk
        have hmem : p.1 ∈ rest.map Prod.fst := List.mem_map_of_mem Prod.fst hp
        rw [hpk] at hmem
        exact hnd.1 hmem
      · rintro ⟨hp, hne⟩
        rcases List.mem_cons.mp hp with he2 | h2
        · exact absurd (by rw [he2]) hne
        · exact h2
    · have he : (((k, b) :: rest).eraseP (fun q => q.1 == key)) =
          (k, b) :: rest.eraseP (fun q => q.1 == key) := by
        have : ((k, b).1 == key) = false := by simp [hk]
        simp [List.eraseP_cons, this]
      have hm2 : (key, c) ∈ rest := by
        rcases List.mem_cons.mp hm with he2 | h2
        · exact absurd (congrArg Prod.fst he2).symm (by simpa using hk)
        · exact h2
      obtain ⟨ih1, ih2⟩ := ih key c hnd.2 hm2
      rw [he]
      constructor
      · intro p
        constructor
        · intro hp
          rcases List.mem_cons.mp hp with he2 | h2
          · subst he2
            exact ⟨List.mem_cons_self _ _, by simpa using hk⟩
          · obtain ⟨hp2, hne⟩ := (ih1 p).mp h2
            exact ⟨List.mem_cons_of_mem _ hp2, hne⟩
        · rintro ⟨hp, hne⟩
          rcases List.mem_cons.mp hp with he2 | h2
          · subst he2
            exact List.mem_cons_self _ _
          · exact List.mem_cons_of_mem _ ((ih1 p).mpr ⟨h2, hne⟩)
      · simp only [List.length_cons]
        omega

/-! ### SPMC append-only vector lemmas -/

lemma getD_set_self {α : Type} (l : List α) (n : Nat) (a d : α)
    (h : n < l.length) : (l.set n a).getD n d = a := by
  unfold List.getD
  rw [List.get?_set_eq]
  simp [List.get?_eq_getElem?, h]

lemma getD_set_ne {α : Type} (l : List α) (n m : Nat) (a d : α)
    (h : n ≠ m) : (l.set n a).getD m d = l.getD m d := by
  unfold List.getD
  rw [List.get?_set_ne _ _ h]

lemma getD_append_self {α : Type} (l : List α) (v d : α) :
    (l ++ [v]).getD l.length d = v := by
  unfold List.getD
  rw [List.get?_concat_length]
  rfl

/-- A fresh `spmc_push_vec` satisfies the structural invariant. -/
lemma spmcInit_inv {T : Type} (cap0 : Nat) : SpmcInv (spmcInit T cap0) := by
  refine ⟨?_, ?_, ?_, ?_⟩ <;>
    simp [spmcInit, createNewVector, vecReserve, vecAt, List.getD]

lemma vecAt_createNewVector {T : Type} (s : SpmcState T) (prev : List T) :
    vecAt (createNewVector s prev).2 (createNewVector s prev).1 =
      ⟨prev, prev.length⟩ := by
  simp only [createNewVector, vecAt]
  exact getD_append_self _ _ _

lemma vecAt_vecReserve_self {T : Type} (s : SpmcState T) (addr k : Nat)
    (h : addr < s.heap.length) :
    vecAt (vecReserve s addr k) addr =
      ⟨(vecAt s addr).data, max (vecAt s addr).cap k⟩ := by
  simp only [vecReserve, vecAt]
  exact getD_set_self _ _ _ _ h

lemma vecAt_vecPushBack_self {T : Type} (s : SpmcState T) (addr : Nat) (v : T)
    (h : addr < s.heap.length) :
    vecAt (vecPushBack s addr v) addr =
      ⟨(vecAt s addr).data ++ [v],
        max (vecAt s addr).cap ((vecAt s addr).data.length + 1)⟩ := by
  simp only [vecPushBack, vecAt]
  exact getD_set_self _ _ _ _ h

lemma vecAt_vecResize_self {T : Type} [Inhabited T] (s : SpmcState T)
    (addr k : Nat) (h : addr < s.heap.length) :
    vecAt (vecResize s addr k) addr =
      ⟨if k ≤ (vecAt s addr).data.length then (vecAt s addr).data.take k
        else (vecAt s addr).data ++
          List.replicate (k - (vecAt s addr).data.length) default,
        max (vecAt s addr).cap k⟩ := by
  simp only [vecResize, vecAt]
  exact getD_set_self _ _ _ _ h

lemma spmcReserve_size {T : Type} (s : SpmcState T) (k : Nat) :
    (spmcReserve s k).size = s.size := by
  unfold spmcReserve
  split <;> rfl

lemma spmcReserve_oldVecs_grow {T : Type} (s : SpmcState T) (k : Nat)
    (hc : spmcCapacity s < k) :
    (spmcReserve s k).oldVecs = s.oldVecs ++ [s.heap.length] := by
  unfold spmcReserve
  rw [if_pos hc]
  rfl

lemma spmcReserve_current_grow {T : Type} (s : SpmcState T) (k : Nat)
    (hc : spmcCapacity s < k) :
    (spmcReserve s k).current = s.heap.length := by
  unfold spmcReserve
  rw [if_pos hc]
  rfl

lemma spmcReserve_heapLen_grow {T : Type} (s : SpmcState T) (k : Nat)
    (hc : spmcCapacity s < k) :
    (spmcReserve s k).heap.length = s.heap.length + 1 := by
  unfold spmcReserve
  rw [if_pos hc]
  simp [vecReserve, createNewVector]

lemma spmcReserve_noGrow {T : Type} (s : SpmcState T) (k : Nat)
    (hc : ¬ spmcCapacity s < k) : spmcReserve s k = s := by
  unfold spmcReserve
  rw [if_neg hc]

lemma spmcReserve_grow_vecAt {T : Type} (s : SpmcState T) (k : Nat)
    (hc : spmcCapacity s < k) :
    vecAt (spmcReserve s k) (spmcReserve s k).current =
      ⟨(vecAt s s.current).data, max (vecAt s s.current).data.length k⟩ := by
  unfold spmcReserve
  rw [if_pos hc]
  have hlt : (createNewVector s (vecAt s s.current).data).1 <
      (createNewVector s (vecAt s s.current).data).2.heap.length := by
    simp [createNewVector]
  show vecAt (vecReserve (createNewVector s (vecAt s s.current).data).2
      (createNewVector s (vecAt s s.current).data).1 k)
      (createNewVector s (vecAt s s.current).data).1 = _
  rw [vecAt_vecReserve_self _ _ _ hlt, vecAt_createNewVector]

/-- `reserve` preserves the invariant, the published size, and the active
contents. -/
lemma spmcReserve_spec {T : Type} (s : SpmcState T) (k : Nat)
    (hinv : SpmcInv s) :
    SpmcInv (spmcReserve s k) ∧ (spmcReserve s k).size = s.size ∧
    (vecAt (spmcReserve s k) (spmcReserve s k).current).data =
      (vecAt s s.current).data := by
  obtain ⟨h1, h2, h3, h4⟩ := hinv
  by_cases hc : spmcCapacity s < k
  · have hv := spmcReserve_grow_vecAt s k hc
    refine ⟨⟨?_, ?_, ?_, ?_⟩, spmcReserve_size s k, ?_⟩
    · rw [spmcReserve_oldVecs_grow s k hc]
      simp
    · rw [spmcReserve_oldVecs_grow s k hc, spmcReserve_current_grow s k hc]
      simp
    · rw [spmcReserve_current_grow s k hc, spmcReserve_heapLen_grow s k hc]
      omega
    · rw [hv, spmcReserve_size s k]
      exact h4
    · rw [hv]
  · rw [spmcReserve_noGrow s k hc]
    exact ⟨⟨h1, h2, h3, h4⟩, rfl, rfl⟩

/-- `push_back` (and `emplace_back`) preserve the invariant. -/
lemma spmcPushBack_inv {T : Type} (s : SpmcState T) (v : T)
    (hinv : SpmcInv s) : SpmcInv (spmcPushBack s v) := by
  unfold spmcPushBack
  simp only
  set s1 := if spmcCapacity s ≤ s.size
    then spmcReserve s (spmcCapacity s * 2) else s with hs1
  have hb : SpmcInv s1 ∧ s1.size = s.size ∧
      (vecAt s1 s1.current).data = (vecAt s s.current).data := by
    rw [hs1]
    by_cases hc : spmcCapacity s ≤ s.size
    · rw [if_pos hc]
      exact spmcReserve_spec s _ hinv
    · rw [if_neg hc]
      exact ⟨hinv, rfl, rfl⟩
  obtain ⟨⟨i1, i2, i3, i4⟩, hsz, hdata⟩ := hb
  have hv := vecAt_vecPushBack_self s1 s1.current v i3
  refine ⟨i1, i2, ?_, ?_⟩
  · show s1.current < (vecPushBack s1 s1.current v).heap.length
    simpa [vecPushBack] using i3
  · show (vecAt (vecPushBack s1 s1.current v) s1.current).data.length = s.size + 1
    rw [hv]
    simp only [List.length_append, List.length_cons, List.length_nil]
    omega

lemma spmcResize_err {T : Type} [Inhabited T] (s : SpmcState T) (k : Nat)
    (hk : k < s.size) :
    spmcResize s k = .error "spmc_push_vec::resize - cannot shrink" := by
  unfold spmcResize
  rw [if_pos hk]

/-- Successful `resize` characterised: invariant kept, size published, old
contents preserved, newly exposed tail default-initialised. -/
lemma spmcResize_ok_spec {T : Type} [Inhabited T] (s : SpmcState T) (k : Nat)
    (hinv : SpmcInv s) (hk : s.size ≤ k) :
    ∃ s2, spmcResize s k = .ok s2 ∧ SpmcInv s2 ∧ s2.size = k ∧
      (vecAt s2 s2.current).data =
        (vecAt s s.current).data ++ List.replicate (k - s.size) default := by
  obtain ⟨⟨r1, r2, r3, r4⟩, hrsz, hrdata⟩ := spmcReserve_spec s k hinv
  have hS : (vecAt s s.current).data.length = s.size := hinv.2.2.2
  have hdlen : (vecAt (spmcReserve s k) (spmcReserve s k).current).data.length
      = s.size := by
    rw [hrdata]
    exact hS
  have hv := vecAt_vecResize_self (spmcReserve s k) (spmcReserve s k).current k r3
  rw [hrdata] at hv
  have hcond : (if k ≤ (vecAt s s.current).data.length
      then (vecAt s s.current).data.take k
      else (vecAt s s.current).data ++
        List.replicate (k - (vecAt s s.current).data.length) default) =
      (vecAt s s.current).data ++ List.replicate (k - s.size) default := by
    by_cases hck : k ≤ (vecAt s s.current).data.length
    · have hkeq : k = (vecAt s s.current).data.length := by omega
      rw [if_pos hck, hkeq, List.take_length, hS]
      simp
    · rw [if_neg hck, hS]
  rw [hcond] at hv
  unfold spmcResize
  rw [if_neg (by omega)]
  refine ⟨_, rfl, ⟨r1, r2, ?_, ?_⟩, rfl, ?_⟩
  · show (spmcReserve s k).current <
      (vecResize (spmcReserve s k) (spmcReserve s k).current k).heap.length
    simpa [vecResize] using r3
  · show (vecAt (vecResize (spmcReserve s k) (spmcReserve s k).current k)
      (spmcReserve s k).current).data.length = k
    rw [hv]
    simp only [List.length_append, List.length_replicate]
    omega
  · show (vecAt (vecResize (spmcReserve s k) (spmcReserve s k).current k)
      (spmcReserve s k).current).data = _
    rw [hv]

/-- Every producer call preserves the structural invariant. -/
lemma spmcApply_inv {T : Type} [Inhabited T] (s : SpmcState T) (op : SpmcOp T)
    (hinv : SpmcInv s) : SpmcInv (spmcApply s op) := by
  cases op with
  | pushBack v => exact spmcPushBack_inv s v hinv
  | emplaceBack v => exact spmcPushBack_inv s v hinv
  | reserve k => exact (spmcReserve_spec s k hinv).1
  | resize k =>
    simp only [spmcApply]
    by_cases hk : k < s.size
    · rw [spmcResize_err s k hk]
      exact hinv
    · obtain ⟨s2, hok, hinv2, -, -⟩ := spmcResize_ok_spec s k hinv (by omega)
      rw [hok]
      exact hinv2
  | dropOld =>
    obtain ⟨h1, h2, h3, h4⟩ := hinv
    simp only [spmcApply]
    unfold spmcDropOld
    rw [h2]
    exact ⟨by simp, by simp, h3, h4⟩

/-- Any run of producer calls preserves the structural invariant. -/
lemma spmcRun_inv {T : Type} [Inhabited T] :
    ∀ (ops : List (SpmcOp T)) (s : SpmcState T),
      SpmcInv s → SpmcInv (spmcRun s ops) := by
  intro ops
  induction ops with
  | nil => intro s h; exact h
  | cons op ops ih => intro s h; exact ih (spmcApply s op) (spmcApply_inv s op h)

/-- Reachable states satisfy the structural invariant. -/
lemma spmcReachable_inv {T : Type} [Inhabited T] {s : SpmcState T}
    (h : SpmcReachable s) : SpmcInv s := by
  obtain ⟨cap0, ops, heq⟩ := h
  rw [← heq]
  exact spmcRun_inv ops (spmcInit T cap0) (spmcInit_inv cap0)

/-! ## Claim theorems -/

/-- C1, counterexample: the spec's slot formula `(i mod (M·K)) div K` does
not describe `get`.  With `M = 2` lines of `K = 4` elements (a legal `pow2`
instantiation), `get(3)` addresses slot `(3 mod 8) div 2 = 1`, not
`(3 mod 8) div 4 = 0`; moreover the spec's tile/slot formula sends both
`i = 1` and `i = 3` to the same cell even though `1 ≢ 3 (mod 8)`, so it is
not a bijection from `[0, M·K)` onto the cells. -/
theorem fsob_get_div_K_counterexample :
    fsobCell .pow2 2 4 3 ≠ (3 % 2, 3 % (2 * 4) / 4) ∧
    (1 % 2, 1 % (2 * 4) / 4) = (3 % 2, 3 % (2 * 4) / 4) ∧
    1 % (2 * 4) ≠ 3 % (2 * 4) := by
  decide

/-- C1, amended: for every buffer with `M` tiles of `K` elements (any
`exact` instantiation, and any `pow2` instantiation with `M`, `K` powers of
two, which is what the constructor produces), `get(i)` addresses tile
`i mod M` and slot `(i mod (M·K)) div M`; this mapping hits only the `M·K`
real cells, two indices share a cell exactly when they are congruent modulo
`M·K`, and every cell is hit by an index of the window `[0, M·K)` — a
bijection from the window onto the cells. -/
theorem fsob_get_tile_slot_bijection (policy : CacheSizePolicy) (M K i j : Nat)
    (hpol : PolicyOk policy M K) (hM : 0 < M) (hK : 0 < K) :
    fsobCell policy M K i = (i % M, i % (M * K) / M) ∧
    i % M < M ∧ i % (M * K) / M < K ∧
    (fsobCell policy M K i = fsobCell policy M K j ↔ i % (M * K) = j % (M * K)) ∧
    (∀ t sl : Nat, t < M → sl < K →
      ∃ idx : Nat, idx < M * K ∧ fsobCell policy M K idx = (t, sl)) := by
  refine ⟨fsobCell_formula policy M K i hpol, Nat.mod_lt i hM,
    fsobCell_slot_lt M K i hM hK, fsobCell_eq_iff policy M K i j hpol hM hK, ?_⟩
  intro t sl ht hsl
  have hlt : sl * M + t < M * K := by
    calc sl * M + t < sl * M + M := by omega
      _ = (sl + 1) * M := by ring
      _ ≤ K * M := Nat.mul_le_mul_right M hsl
      _ = M * K := Nat.mul_comm K M
  refine ⟨sl * M + t, hlt, ?_⟩
  rw [fsobCell_formula policy M K _ hpol]
  have h1 : (sl * M + t) % M = t := by
    rw [Nat.mul_comm sl M, Nat.mul_add_mod, Nat.mod_eq_of_lt ht]
  have h2 : (sl * M + t) % (M * K) = sl * M + t := Nat.mod_eq_of_lt hlt
  have h3 : (sl * M + t) / M = sl := by
    rw [Nat.mul_comm sl M, Nat.mul_add_div hM, Nat.div_eq_of_lt ht]
    omega
  rw [h1, h2, h3]

/-- Witness for the amended C1 theorem: the `pow2` buffer with `M = 2`,
`K = 4` is well-formed, and indices `3` and `11` (congruent modulo 8) share
a storage cell. -/
theorem fsob_get_tile_slot_bijection_witness :
    PolicyOk .pow2 2 4 ∧
    (fsobCell .pow2 2 4 3 = fsobCell .pow2 2 4 11 ↔ 3 % (2 * 4) = 11 % (2 * 4)) :=
  ⟨Or.inr ⟨⟨1, rfl⟩, ⟨2, rfl⟩⟩,
    (fsob_get_tile_slot_bijection .pow2 2 4 3 11 (Or.inr ⟨⟨1, rfl⟩, ⟨2, rfl⟩⟩)
      (by decide) (by decide)).2.2.2.1⟩

/-- C2: the claim holds for the `exact` policy (`M = max(L, ⌈E/K⌉)` and
`size() = M·K`), but under the `pow2` policy the code is wrong: only the
`minimum_cache_lines` argument is rounded up to a power of two, so when the
element-derived count `⌈E/K⌉` dominates, the allocated line count is not a
power of two — contradicting `calc_min_cache_lines`'s own doc comment
("Ensures pow2 policy allocates a power-of-two cache-line count") and the
repository's own test assertion ("capacity should be a power-of-two for the
pow2 policy").  Concretely, for an 8-byte element (`K = 8`), `L = 1`,
`E = 24`, the `pow2` buffer allocates `M = 3` lines and `size() = 24`; the
non-power-of-two count then breaks the mask-based `pow2` indexer itself
(`4 & (3-1) = 0` whereas `4 mod 3 = 1`). -/
theorem pow2_policy_non_pow2_line_count :
    elementsPerCacheLinePow2 8 = 8 ∧
    numCacheLines .exact 8 1 24 = max 1 ((24 + 7) / 8) ∧
    numCacheLines .pow2 8 1 24 = 3 ∧
    (∀ k : Nat, 3 ≠ 2 ^ k) ∧
    fsobSize .pow2 8 1 24 = 24 ∧
    modIndexer .pow2 3 4 = 0 ∧ 4 % 3 = 1 := by
  refine ⟨by decide, by decide, by decide, ?_, by decide, by decide, by decide⟩
  intro k
  cases k with
  | zero => decide
  | succ k =>
    intro h
    have h2 : (2:Nat) ^ (k + 1) % 2 = 0 := by
      rw [pow_succ]
      simp [Nat.mul_mod_left]
    rw [← h] at h2
    norm_num at h2

/-- C3: when `confirm_write(i)` returns having observed read head `r`, the
read head becomes `i + 1` if `r = i`, stays `r` if `r > i` (the work was
already done), is never set to any other value, and never decreases; and
along every sequence of `get_write_index` / `confirm_write` /
`get_read_index` calls the read head is non-decreasing. -/
theorem confirm_write_read_head_steps (fuel r i r2 : Nat) (s s2 : WriteConfirm)
    (ops : List BarrierOp)
    (hloop : confirmWriteLoop fuel r i = some r2)
    (hrun : barrierRun fuel s ops = some s2) :
    ((r = i → r2 = i + 1) ∧ (i < r → r2 = r) ∧ r ≤ r2 ∧
      (r2 = r ∨ (r = i ∧ r2 = i + 1))) ∧
    s.readHead ≤ s2.readHead := by
  have hspec := confirmWriteLoop_spec fuel r i r2 hloop
  refine ⟨⟨?_, ?_, ?_, ?_⟩, barrierRun_readHead_mono fuel ops s s2 hrun⟩
  · intro he; rcases hspec with ⟨_, hv⟩ | ⟨hgt, _⟩
    · exact hv
    · omega
  · intro hgt; rcases hspec with ⟨he, _⟩ | ⟨_, hv⟩
    · omega
    · exact hv
  · rcases hspec with ⟨he, hv⟩ | ⟨_, hv⟩ <;> omega
  · rcases hspec with ⟨he, hv⟩ | ⟨_, hv⟩
    · exact Or.inr ⟨he, hv⟩
    · exact Or.inl hv

/-- Witness for C3: a commit at index 0 against read head 0 installs 1, and
the call sequence reserve–commit–poll moves the read head from 0 to 1. -/
theorem confirm_write_read_head_steps_witness :
    confirmWriteLoop 1 0 0 = some 1 ∧
    barrierRun 1 ⟨0, 0⟩ [.getWrite, .confirm 0, .getRead] = some ⟨1, 1⟩ ∧
    (((0 = 0 → 1 = 0 + 1) ∧ (0 < 0 → 1 = 0) ∧ 0 ≤ 1 ∧
        (1 = 0 ∨ (0 = 0 ∧ 1 = 0 + 1))) ∧
      (⟨0, 0⟩ : WriteConfirm).readHead ≤ (⟨1, 1⟩ : WriteConfirm).readHead) :=
  ⟨by decide, by decide,
    confirm_write_read_head_steps 1 0 0 1 ⟨0, 0⟩ ⟨1, 1⟩
      [.getWrite, .confirm 0, .getRead] (by decide) (by decide)⟩

/-- C4: for every `spsc_queue` and every sequential trace of interleaved
`push`/`pop` calls in which no `push` ever spins (the run completes, i.e.
the pushed-but-unpopped window always stays below the capacity), the values
returned by the successful pops are exactly the pushed elements, in order,
with no loss and no duplication: the pop-output sequence is the length-many
prefix of the push sequence. -/
theorem spsc_fifo_order (policy : CacheSizePolicy) (M K : Nat) {T : Type}
    (d : T) (ops : List (SpscOp T)) (outs : List T)
    (hpol : PolicyOk policy M K) (hM : 0 < M) (hK : 0 < K)
    (h : spscRunOuts policy M K (spscInit T d) ops = some outs) :
    outs = (pushedVals ops).take outs.length := by
  unfold spscRunOuts at h
  obtain ⟨p, hp, hout⟩ := Option.map_eq_some'.mp h
  have hinv : SpscInv policy M K [] (spscInit T d) := by
    refine ⟨rfl, rfl, by simp [spscInit], by simp [spscInit], ?_⟩
    intro k h1 h2
    simp at h2
  have hspec := spscRun_outs_spec policy M K hpol hM hK ops [] (spscInit T d) p hinv hp
  rw [← hout]
  simpa [spscInit] using hspec

/-- Witness for C4: the spec's SPSC wrap-around scenario.  With capacity
`M·K = 8` (one line of eight 8-byte elements, `pow2` policy), alternately
pushing `i` and popping, for `i ∈ [0, 5·capacity)`, completes without
spinning and every pop yields the `i` just pushed. -/
theorem spsc_fifo_order_witness :
    spscRunOuts .pow2 1 8 (spscInit Nat 0)
        (List.flatten ((List.range 40).map (fun i => [SpscOp.push i, SpscOp.pop]))) =
      some (List.range 40) ∧
    List.range 40 =
      (pushedVals
        (List.flatten ((List.range 40).map (fun i => [SpscOp.push i, SpscOp.pop])))).take
        (List.range 40).length :=
  ⟨by decide,
    spsc_fifo_order .pow2 1 8 0
      (List.flatten ((List.range 40).map (fun i => [SpscOp.push i, SpscOp.pop])))
      (List.range 40) (Or.inr ⟨⟨0, rfl⟩, ⟨3, rfl⟩⟩) (by decide) (by decide)
      (by decide)⟩

/-- C5: `mpsc_queue::pop` returns `false` exactly when the barrier's read
index is at most the tail, and then leaves the tail and the output argument
unchanged; otherwise it moves `buffer[tail]` into the output argument, sets
the tail to `tail + 1`, and returns `true`.  The embedding is a total
function into `Bool × state × out`: emptiness is only ever the boolean,
never an exception. -/
theorem mpsc_pop_empty_boolean (policy : CacheSizePolicy) (M K : Nat) {T : Type}
    (s : MpscState T) (value : T) :
    ((mpscPop policy M K s value).1 = false ↔ getReadIndex s.barrier ≤ s.tail) ∧
    (getReadIndex s.barrier ≤ s.tail →
      mpscPop policy M K s value = (false, s, value)) ∧
    (s.tail < getReadIndex s.barrier →
      mpscPop policy M K s value =
        (true, { s with tail := s.tail + 1 },
          s.buf (fsobCellFlat policy M K s.tail))) := by
  by_cases hc : getReadIndex s.barrier ≤ s.tail
  · refine ⟨?_, fun _ => ?_, fun hlt => absurd hlt (by omega)⟩
    · simp [mpscPop, hc]
    · simp [mpscPop, hc]
  · refine ⟨?_, fun hle => absurd hle hc, fun _ => ?_⟩
    · simp [mpscPop, hc]
    · simp [mpscPop, hc]

/-- Witness for C5 at a concrete queue state (read head 2, tail 1): the pop
succeeds, advances the tail, and returns the tail element. -/
theorem mpsc_pop_empty_boolean_witness :
    ((mpscPop .exact 1 8 (⟨fun _ => 0, ⟨2, 2⟩, 1⟩ : MpscState Nat) 7).1 = false ↔
      getReadIndex (⟨2, 2⟩ : WriteConfirm) ≤ 1) ∧
    (getReadIndex (⟨2, 2⟩ : WriteConfirm) ≤ 1 →
      mpscPop .exact 1 8 (⟨fun _ => 0, ⟨2, 2⟩, 1⟩ : MpscState Nat) 7 =
        (false, ⟨fun _ => 0, ⟨2, 2⟩, 1⟩, 7)) ∧
    (1 < getReadIndex (⟨2, 2⟩ : WriteConfirm) →
      mpscPop .exact 1 8 (⟨fun _ => 0, ⟨2, 2⟩, 1⟩ : MpscState Nat) 7 =
        (true, ⟨fun _ => 0, ⟨2, 2⟩, 2⟩, 0)) :=
  mpsc_pop_empty_boolean .exact 1 8 ⟨fun _ => 0, ⟨2, 2⟩, 1⟩ 7

/-- C7: a handle created by `subscribe()` starts with its tail equal to the
barrier's read index, so already-published elements are not delivered: a
`pop` on the fresh handle immediately reports empty and changes nothing.
In particular (the spec's late-subscription scenario, capacity 8): push
`0 … 4`, subscribe, `pop` returns false; push `42`, `pop` returns true with
value `42`. -/
theorem mpmc_subscribe_no_replay (policy : CacheSizePolicy) (M K : Nat)
    {T : Type} (s : MpmcState T) :
    (mpmcSubscribe s).handles =
      s.handles ++ [⟨getReadIndex s.barrier, true⟩] ∧
    (mpmcHandlePop policy M K (mpmcSubscribe s) s.handles.length).1 = none ∧
    (mpmcHandlePop policy M K (mpmcSubscribe s) s.handles.length).2 =
      mpmcSubscribe s ∧
    ((mpmcPushList 1 .pow2 1 8 (mpmcInit Nat 0) [0, 1, 2, 3, 4]).bind
        (fun s1 =>
          (mpmcPush 1 .pow2 1 8
              (mpmcHandlePop .pow2 1 8 (mpmcSubscribe s1) 0).2 42).map
            (fun s4 =>
              ((mpmcHandlePop .pow2 1 8 (mpmcSubscribe s1) 0).1,
                (mpmcHandlePop .pow2 1 8 s4 0).1)))) = some (none, some 42) := by
  have hidx : (mpmcSubscribe s).handles[s.handles.length]? =
      some ⟨getReadIndex s.barrier, true⟩ := by
    simp [mpmcSubscribe]
  refine ⟨rfl, ?_, ?_, by decide⟩
  · simp [mpmcHandlePop, hidx, mpmcSubscribe, getReadIndex]
  · simp [mpmcHandlePop, hidx, mpmcSubscribe, getReadIndex]

/-- C8: after the daemon callback `update_min_tail` runs, the subscription
list retains exactly the still-subscribed handles, the published `min_tail`
is the minimum of the barrier's read index and the live handles' tails, and
with no live subscribers it equals the read index. -/
theorem update_min_tail_aggregate {T : Type} (s : MpmcState T) :
    ((updateMinTail s).handles = s.handles.filter (fun h => h.subscribed)) ∧
    ((updateMinTail s).minTail ∈
      getReadIndex s.barrier ::
        (s.handles.filter (fun h => h.subscribed)).map (fun h => h.tail)) ∧
    (∀ x ∈ getReadIndex s.barrier ::
        (s.handles.filter (fun h => h.subscribed)).map (fun h => h.tail),
      (updateMinTail s).minTail ≤ x) ∧
    (s.handles.filter (fun h => h.subscribed) = [] →
      (updateMinTail s).minTail = getReadIndex s.barrier) := by
  obtain ⟨h1, h2, h3⟩ := updateMinTailGo_spec s.handles (getReadIndex s.barrier)
  refine ⟨h1, h2, h3, ?_⟩
  intro hempty
  rw [hempty] at h2
  simpa using h2

/-- Witness for C8 at a concrete fan-out state: read head 5, one live
handle at tail 3, one retired handle at tail 7.  The retired handle is
purged and `min_tail` becomes 3. -/
theorem update_min_tail_aggregate_witness :
    ((updateMinTail (⟨fun _ => 0, ⟨9, 5⟩, 0, [⟨3, true⟩, ⟨7, false⟩]⟩ :
        MpmcState Nat)).handles =
      ([⟨3, true⟩, ⟨7, false⟩] : List MpmcHandle).filter
        (fun h => h.subscribed)) ∧
    ((updateMinTail (⟨fun _ => 0, ⟨9, 5⟩, 0, [⟨3, true⟩, ⟨7, false⟩]⟩ :
        MpmcState Nat)).minTail ∈
      getReadIndex (⟨9, 5⟩ : WriteConfirm) ::
        (([⟨3, true⟩, ⟨7, false⟩] : List MpmcHandle).filter
          (fun h => h.subscribed)).map (fun h => h.tail)) ∧
    (∀ x ∈ getReadIndex (⟨9, 5⟩ : WriteConfirm) ::
        (([⟨3, true⟩, ⟨7, false⟩] : List MpmcHandle).filter
          (fun h => h.subscribed)).map (fun h => h.tail),
      (updateMinTail (⟨fun _ => 0, ⟨9, 5⟩, 0, [⟨3, true⟩, ⟨7, false⟩]⟩ :
        MpmcState Nat)).minTail ≤ x) ∧
    (([⟨3, true⟩, ⟨7, false⟩] : List MpmcHandle).filter
        (fun h => h.subscribed) = [] →
      (updateMinTail (⟨fun _ => 0, ⟨9, 5⟩, 0, [⟨3, true⟩, ⟨7, false⟩]⟩ :
        MpmcState Nat)).minTail = getReadIndex (⟨9, 5⟩ : WriteConfirm)) :=
  update_min_tail_aggregate ⟨fun _ => 0, ⟨9, 5⟩, 0, [⟨3, true⟩, ⟨7, false⟩]⟩

/-- C9: `daemon::remove_callback` with an absent key is a silent no-op that
leaves the registry completely unchanged; with a present key (keys are
unique, being generated by a monotone counter) it removes exactly the entry
for that key and leaves every other registered callback unchanged. -/
theorem remove_callback_absent_noop {C : Type} (cbs : List (Nat × C)) (key : Nat) :
    ((∀ p ∈ cbs, p.1 ≠ key) → removeCallback cbs key = cbs) ∧
    ((cbs.map Prod.fst).Nodup → ∀ c : C, (key, c) ∈ cbs →
      ((∀ p : Nat × C,
          p ∈ removeCallback cbs key ↔ p ∈ cbs ∧ p.1 ≠ key) ∧
        (removeCallback cbs key).length + 1 = cbs.length)) := by
  constructor
  · intro h
    unfold removeCallback
    rw [lookup_eq_none_of_absent cbs key h]
    simp
  · intro hnd c hm
    unfold removeCallback
    have hs := lookup_isSome_of_mem cbs key c hm
    have hnone : (List.lookup key cbs).isNone = false := by
      cases hl : List.lookup key cbs
      · rw [hl] at hs; simp at hs
      · simp
    rw [hnone]
    simp only [Bool.false_eq_true, if_false]
    exact eraseP_key_spec cbs key c hnd hm

/-- Witness for C9: removing the absent key 5 from a two-entry registry
changes nothing; removing the present key 2 removes exactly that entry. -/
theorem remove_callback_absent_noop_witness :
    removeCallback [(1, 10), (2, 20)] 5 = [(1, 10), (2, 20)] ∧
    ((∀ p : Nat × Nat,
        p ∈ removeCallback [(1, 10), (2, 20)] 2 ↔
          p ∈ [(1, 10), (2, 20)] ∧ p.1 ≠ 2) ∧
      (removeCallback [(1, 10), (2, 20)] 2).length + 1 =
        ([(1, 10), (2, 20)] : List (Nat × Nat)).length) :=
  ⟨(remove_callback_absent_noop [(1, 10), (2, 20)] 5).1 (by decide),
    (remove_callback_absent_noop [(1, 10), (2, 20)] 2).2 (by decide) 20 (by decide)⟩

/-- C6: on every reachable `spmc_push_vec` state, `resize(k)` raises the
shrink error (`std::runtime_error`, the spec's PrecondViolated) exactly when
`k` is below the current size, and the throw happens before any mutation,
so the container is unchanged; otherwise it succeeds, publishes `size = k`,
keeps the elements below the old size (the active array's contents are
extended, never rewritten), and default-initialises the newly exposed
elements at indices `[old size, k)`. -/
theorem spmc_resize_precond {T : Type} [Inhabited T] (s : SpmcState T)
    (k : Nat) (hreach : SpmcReachable s) :
    (spmcResize s k = .error "spmc_push_vec::resize - cannot shrink" ↔
      k < s.size) ∧
    (k < s.size → spmcApply s (.resize k) = s) ∧
    (s.size ≤ k → ∃ s2, spmcResize s k = .ok s2 ∧ s2.size = k ∧
      (vecAt s2 s2.current).data =
        (vecAt s s.current).data ++ List.replicate (k - s.size) default) := by
  have hinv := spmcReachable_inv hreach
  refine ⟨⟨?_, fun hk => spmcResize_err s k hk⟩, ?_, ?_⟩
  · intro herr
    by_contra hk
    obtain ⟨s2, hok, -, -, -⟩ := spmcResize_ok_spec s k hinv (by omega)
    rw [hok] at herr
    exact absurd herr (by simp)
  · intro hk
    simp only [spmcApply]
    rw [spmcResize_err s k hk]
  · intro hk
    obtain ⟨s2, hok, -, hsz, hdata⟩ := spmcResize_ok_spec s k hinv hk
    exact ⟨s2, hok, hsz, hdata⟩

/-- Witness for C6: on the vector built by `spmc_push_vec(2)` followed by
`push_back(5)` (size 1), `resize(0)` fails leaving the state unchanged and
`resize(3)` succeeds, publishing size 3 with the old element kept and two
default-initialised elements exposed. -/
theorem spmc_resize_precond_witness :
    ((spmcResize (spmcRun (spmcInit Nat 2) [SpmcOp.pushBack 5]) 0 =
        .error "spmc_push_vec::resize - cannot shrink" ↔
      0 < (spmcRun (spmcInit Nat 2) [SpmcOp.pushBack 5]).size) ∧
      (0 < (spmcRun (spmcInit Nat 2) [SpmcOp.pushBack 5]).size →
        spmcApply (spmcRun (spmcInit Nat 2) [SpmcOp.pushBack 5]) (.resize 0) =
          spmcRun (spmcInit Nat 2) [SpmcOp.pushBack 5])) ∧
    ((spmcRun (spmcInit Nat 2) [SpmcOp.pushBack 5]).size ≤ 3 ∧
      ∃ s2, spmcResize (spmcRun (spmcInit Nat 2) [SpmcOp.pushBack 5]) 3 =
          .ok s2 ∧ s2.size = 3 ∧
        (vecAt s2 s2.current).data =
          (vecAt (spmcRun (spmcInit Nat 2) [SpmcOp.pushBack 5])
              (spmcRun (spmcInit Nat 2) [SpmcOp.pushBack 5]).current).data ++
            List.replicate
              (3 - (spmcRun (spmcInit Nat 2) [SpmcOp.pushBack 5]).size)
              default) :=
  ⟨⟨(spmc_resize_precond (spmcRun (spmcInit Nat 2) [SpmcOp.pushBack 5]) 0
        ⟨2, [SpmcOp.pushBack 5], rfl⟩).1,
      (spmc_resize_precond (spmcRun (spmcInit Nat 2) [SpmcOp.pushBack 5]) 0
        ⟨2, [SpmcOp.pushBack 5], rfl⟩).2.1⟩,
    ⟨by decide,
      (spmc_resize_precond (spmcRun (spmcInit Nat 2) [SpmcOp.pushBack 5]) 3
        ⟨2, [SpmcOp.pushBack 5], rfl⟩).2.2 (by decide)⟩⟩

/-- C10: in every state reachable by construction followed by any sequence
of `push_back` / `emplace_back` / `reserve` / `resize` / `drop_old`, the
archive `m_old_vecs` is non-empty and its last entry is exactly the backing
array published through `m_current_vec`; consequently `drop_old` always
retains the currently active backing array. -/
theorem spmc_archive_last_is_current {T : Type} [Inhabited T] (cap0 : Nat)
    (ops : List (SpmcOp T)) :
    (spmcRun (spmcInit T cap0) ops).oldVecs ≠ [] ∧
    (spmcRun (spmcInit T cap0) ops).oldVecs.getLast? =
      some (spmcRun (spmcInit T cap0) ops).current := by
  have h := spmcRun_inv ops (spmcInit T cap0) (spmcInit_inv cap0)
  exact ⟨h.1, h.2.1⟩

end HqLockfree
